import Mathlib

/-!
Shallow embedding of the loan-schedule engine `compute_schedule` from
`Loan_Calculator_project/streamlit_app.py`, together with theorems about
the properties stated in the design document.

Monetary quantities are modelled as exact rationals (`ℚ`); Python's
`round(x, 2)` (round-half-to-even at two decimal places) is modelled by
`round2` below.
-/

/-- Round-half-to-even to the nearest integer, as Python's builtin `round`
does on the idealised (exact) value. -/
def bankersRound (x : ℚ) : ℤ :=
  if x - ⌊x⌋ < 1 / 2 then ⌊x⌋
  else if 1 / 2 < x - ⌊x⌋ then ⌊x⌋ + 1
  else if 2 ∣ ⌊x⌋ then ⌊x⌋ else ⌊x⌋ + 1

/-- Model of Python's `round(x, 2)`: round-half-to-even at two decimals. -/
def round2 (x : ℚ) : ℚ :=
  (bankersRound (100 * x) : ℚ) / 100

/-- Compounding frequency option, the `compounding` selectbox value. -/
inductive Compounding
  | monthly
  | quarterly
  | yearly
deriving DecidableEq, Repr

/-- `{"Monthly": 12, "Quarterly": 4, "Yearly": 1}[compounding]`. -/
def Compounding.periodsPerYear : Compounding → ℕ
  | .monthly => 12
  | .quarterly => 4
  | .yearly => 1

/-- Days added to the running due date each period:
`+30` days for monthly, `+91` for quarterly, `+365` for yearly. -/
def Compounding.periodDays : Compounding → ℤ
  | .monthly => 30
  | .quarterly => 91
  | .yearly => 365

/-- The arguments of `compute_schedule`.  `startDate` is a calendar date
modelled as an integer day number. -/
structure LoanParams where
  principal : ℚ
  annualRatePct : ℚ
  years : ℕ
  startDate : ℤ
  compounding : Compounding
  flatInterest : Bool
  extraPerPeriod : ℚ
  feesFlat : ℚ
  feesPct : ℚ
  insurancePerPeriod : ℚ
deriving Repr

/-- `n = max(1, int(years * periods_per_year))`. -/
def totalPeriods (p : LoanParams) : ℕ :=
  max 1 (p.years * p.compounding.periodsPerYear)

/-- `principal_with_fees = principal + fees_flat + principal * (fees_pct / 100.0)`. -/
def principalWithFees (p : LoanParams) : ℚ :=
  p.principal + p.feesFlat + p.principal * (p.feesPct / 100)

/-- `r = (annual_rate_pct / 100.0) / periods_per_year`. -/
def periodRate (p : LoanParams) : ℚ :=
  (p.annualRatePct / 100) / (p.compounding.periodsPerYear : ℚ)

/-- The scheduled per-period payment selected by `compute_schedule`
(lines 41-48): flat-interest formula, straight-line division at zero rate,
otherwise the standard annuity formula. -/
def basePayment (p : LoanParams) : ℚ :=
  if p.flatInterest then
    (principalWithFees p
      + principalWithFees p * (p.annualRatePct / 100) * (p.years : ℚ))
      / (totalPeriods p : ℚ)
  else if periodRate p = 0 then
    principalWithFees p / (totalPeriods p : ℚ)
  else
    principalWithFees p * periodRate p * (1 + periodRate p) ^ totalPeriods p
      / ((1 + periodRate p) ^ totalPeriods p - 1)

/-- One row of the schedule before the per-field rounding applied when the
row is appended to `sched`.  The fields are exactly the loop-local values of
one iteration of the `for k in range(1, n + 1)` loop. -/
structure RawRow where
  period : ℕ
  date : ℤ
  payment : ℚ
  principalComp : ℚ
  interest : ℚ
  extra : ℚ
  insurance : ℚ
  balance : ℚ
  cumulative : ℚ
deriving Repr

/-- The cash actually paid in a period:
`payment_this_period = principal_comp + interest + extra + insurance_per_period`. -/
def RawRow.cash (r : RawRow) : ℚ :=
  r.principalComp + r.interest + r.extra + r.insurance

/-- Interest accrued in one period (lines 56-60):
on the fee-adjusted principal for the flat method, on the running balance
otherwise. -/
def stepInterest (p : LoanParams) (bal : ℚ) : ℚ :=
  if p.flatInterest then principalWithFees p * periodRate p
  else bal * periodRate p

/-- `principal_comp = min(base_payment - interest, bal)` (lines 58-63). -/
def stepPrincipal (p : LoanParams) (base bal : ℚ) : ℚ :=
  min (base - stepInterest p bal) bal

/-- `extra = min(extra_per_period, max(0.0, bal - principal_comp))` (line 64). -/
def stepExtra (p : LoanParams) (base bal : ℚ) : ℚ :=
  min p.extraPerPeriod (max 0 (bal - stepPrincipal p base bal))

/-- `payment_this_period = principal_comp + interest + extra + insurance_per_period`
(line 66). -/
def stepPay (p : LoanParams) (base bal : ℚ) : ℚ :=
  stepPrincipal p base bal + stepInterest p bal + stepExtra p base bal
    + p.insurancePerPeriod

/-- `bal = max(0.0, bal - principal_comp - extra)` (line 67). -/
def stepBal (p : LoanParams) (base bal : ℚ) : ℚ :=
  max 0 (bal - stepPrincipal p base bal - stepExtra p base bal)

/-- The amortization loop of `compute_schedule` (lines 55-90), producing the
rows with their exact (unrounded) values.  `fuel` is the number of loop
iterations still allowed (`n` at the start), `k` the 1-based period index,
`d` the running due date, `bal` the running balance, `cum` the running
cumulative cash paid. -/
def loopAux (p : LoanParams) (base : ℚ) :
    ℕ → ℕ → ℤ → ℚ → ℚ → List RawRow
  | 0, _, _, _, _ => []
  | fuel + 1, k, d, bal, cum =>
    ⟨k, d, base, stepPrincipal p base bal, stepInterest p bal,
      stepExtra p base bal, p.insurancePerPeriod, stepBal p base bal,
      cum + stepPay p base bal⟩ ::
      (if stepBal p base bal ≤ 0 then []
       else loopAux p base fuel (k + 1) (d + p.compounding.periodDays)
              (stepBal p base bal) (cum + stepPay p base bal))

/-- The exact (unrounded) rows produced by the loop of `compute_schedule`. -/
def rawRows (p : LoanParams) : List RawRow :=
  loopAux p (basePayment p) (totalPeriods p) 1 p.startDate
    (principalWithFees p) 0

/-- One row as appended to `sched`: every monetary field passed through
`round(., 2)` at the point of record creation. -/
structure Row where
  period : ℕ
  date : ℤ
  payment : ℚ
  principalComp : ℚ
  interest : ℚ
  extra : ℚ
  insurance : ℚ
  balance : ℚ
  cumulative : ℚ
deriving Repr

/-- Rounding applied when a row is appended (lines 70-80). -/
def roundRow (r : RawRow) : Row :=
  ⟨r.period, r.date, round2 r.payment, round2 r.principalComp,
    round2 r.interest, round2 r.extra, round2 r.insurance,
    round2 r.balance, round2 r.cumulative⟩

/-- The summary dict returned by `compute_schedule`. -/
structure Summary where
  emi : ℚ
  totalInterest : ℚ
  totalExtra : ℚ
  totalInsurance : ℚ
  totalPaid : ℚ
  tenure : ℕ
  lastPaymentDate : ℤ
  principalInclFees : ℚ
deriving Repr

/-- The summary computation (lines 94-110), including the defensive
all-zero branch for an empty schedule. -/
def summaryOf (p : LoanParams) (sched : List Row) : Summary :=
  match sched with
  | [] => ⟨0, 0, 0, 0, 0, 0, 0, 0⟩
  | first :: rest =>
    { emi := round2 first.payment
      totalInterest := round2 (((first :: rest).map Row.interest).sum)
      totalExtra := round2 (((first :: rest).map Row.extra).sum)
      totalInsurance := round2 (((first :: rest).map Row.insurance).sum)
      totalPaid := round2 (((first :: rest).map Row.payment).sum
        + ((first :: rest).map Row.extra).sum
        + ((first :: rest).map Row.insurance).sum)
      tenure := (first :: rest).length
      lastPaymentDate := ((first :: rest).getLastD first).date
      principalInclFees := round2 (principalWithFees p) }

/-- The embedding of `compute_schedule`: the rounded schedule rows and
the summary. -/
def compute_schedule (p : LoanParams) : List Row × Summary :=
  let sched := (rawRows p).map roundRow
  (sched, summaryOf p sched)

/-! ### Properties of the rounding function -/

theorem bankersRound_ge_floor (x : ℚ) : ⌊x⌋ ≤ bankersRound x := by
  unfold bankersRound
  split_ifs <;> omega

theorem bankersRound_le_floor_add_one (x : ℚ) : bankersRound x ≤ ⌊x⌋ + 1 := by
  unfold bankersRound
  split_ifs <;> omega

theorem bankersRound_mono {x y : ℚ} (h : x ≤ y) :
    bankersRound x ≤ bankersRound y := by
  have hf : ⌊x⌋ ≤ ⌊y⌋ := Int.floor_le_floor h
  rcases eq_or_lt_of_le hf with heq | hlt
  · unfold bankersRound
    rw [← heq]
    split_ifs <;> first | omega | (exfalso; linarith)
  · calc bankersRound x ≤ ⌊x⌋ + 1 := bankersRound_le_floor_add_one x
      _ ≤ ⌊y⌋ := hlt
      _ ≤ bankersRound y := bankersRound_ge_floor y

theorem bankersRound_intCast (m : ℤ) : bankersRound (m : ℚ) = m := by
  unfold bankersRound
  rw [Int.floor_intCast]
  norm_num

theorem round2_mono {x y : ℚ} (h : x ≤ y) : round2 x ≤ round2 y := by
  unfold round2
  have h100 : (100 : ℚ) * x ≤ 100 * y := by linarith
  have := bankersRound_mono h100
  have hcast : ((bankersRound (100 * x) : ℤ) : ℚ) ≤ (bankersRound (100 * y) : ℚ) := by
    exact_mod_cast this
  linarith

theorem round2_zero : round2 0 = 0 := by
  have : ((100 : ℚ) * 0) = ((0 : ℤ) : ℚ) := by norm_num
  unfold round2
  rw [this, bankersRound_intCast]
  norm_num

theorem round2_nonneg {x : ℚ} (h : 0 ≤ x) : 0 ≤ round2 x := by
  have := round2_mono h
  rwa [round2_zero] at this

theorem round2_intCast_div_100 (m : ℤ) : round2 ((m : ℚ) / 100) = (m : ℚ) / 100 := by
  unfold round2
  have : (100 : ℚ) * ((m : ℚ) / 100) = (m : ℚ) := by ring
  rw [this, bankersRound_intCast]

theorem round2_round2 (x : ℚ) : round2 (round2 x) = round2 x := by
  have : round2 x = ((bankersRound (100 * x) : ℤ) : ℚ) / 100 := rfl
  rw [this, round2_intCast_div_100]

/-! ### Basic facts about the loop, with no hypotheses on the parameters -/

theorem stepBal_nonneg (p : LoanParams) (base bal : ℚ) :
    0 ≤ stepBal p base bal :=
  le_max_left 0 _

theorem loopAux_ne_nil (p : LoanParams) (base : ℚ) {fuel : ℕ}
    (k : ℕ) (d : ℤ) (bal cum : ℚ) (h : 0 < fuel) :
    loopAux p base fuel k d bal cum ≠ [] := by
  cases fuel with
  | zero => omega
  | succ f => simp [loopAux]

theorem loopAux_length_le (p : LoanParams) (base : ℚ) :
    ∀ (fuel k : ℕ) (d : ℤ) (bal cum : ℚ),
      (loopAux p base fuel k d bal cum).length ≤ fuel := by
  intro fuel
  induction fuel with
  | zero => intro k d bal cum; simp [loopAux]
  | succ f ih =>
    intro k d bal cum
    simp only [loopAux, List.length_cons]
    split
    · simp
    · exact Nat.succ_le_succ (ih _ _ _ _)

theorem loopAux_payment (p : LoanParams) (base : ℚ) :
    ∀ (fuel k : ℕ) (d : ℤ) (bal cum : ℚ),
      ∀ r ∈ loopAux p base fuel k d bal cum, r.payment = base := by
  intro fuel
  induction fuel with
  | zero => intro k d bal cum r hr; simp [loopAux] at hr
  | succ f ih =>
    intro k d bal cum r hr
    simp only [loopAux, List.mem_cons] at hr
    rcases hr with hr | hr
    · rw [hr]
    · split at hr
      · simp at hr
      · exact ih _ _ _ _ r hr

theorem loopAux_dropLast_balance_pos (p : LoanParams) (base : ℚ) :
    ∀ (fuel k : ℕ) (d : ℤ) (bal cum : ℚ),
      ∀ r ∈ (loopAux p base fuel k d bal cum).dropLast, 0 < r.balance := by
  intro fuel
  induction fuel with
  | zero => intro k d bal cum r hr; simp [loopAux] at hr
  | succ f ih =>
    intro k d bal cum r hr
    simp only [loopAux] at hr
    by_cases hstop : stepBal p base bal ≤ 0
    · rw [if_pos hstop] at hr
      simp at hr
    · rw [if_neg hstop] at hr
      have hne : loopAux p base f (k + 1) (d + p.compounding.periodDays)
          (stepBal p base bal) (cum + stepPay p base bal) ≠ [] ∨
          loopAux p base f (k + 1) (d + p.compounding.periodDays)
          (stepBal p base bal) (cum + stepPay p base bal) = [] := by
        tauto
      rcases hne with hne | hnil
      · obtain ⟨b, l, hbl⟩ := List.exists_cons_of_ne_nil hne
        rw [hbl] at hr
        rw [List.dropLast_cons₂] at hr
        rcases List.mem_cons.mp hr with hr | hr
        · rw [hr]
          simpa using lt_of_not_le hstop
        · rw [← hbl] at hr
          exact ih _ _ _ _ r hr
      · rw [hnil] at hr
        simp at hr

theorem loopAux_early_stop (p : LoanParams) (base : ℚ) :
    ∀ (fuel k : ℕ) (d : ℤ) (bal cum : ℚ),
      (loopAux p base fuel k d bal cum).length < fuel →
      ((loopAux p base fuel k d bal cum).map RawRow.balance).getLast?
        = some 0 := by
  intro fuel
  induction fuel with
  | zero => intro k d bal cum h; omega
  | succ f ih =>
    intro k d bal cum h
    simp only [loopAux] at h ⊢
    by_cases hstop : stepBal p base bal ≤ 0
    · rw [if_pos hstop] at h ⊢
      have : stepBal p base bal = 0 :=
        le_antisymm hstop (stepBal_nonneg p base bal)
      simp [this]
    · rw [if_neg hstop] at h ⊢
      have hlen : (loopAux p base f (k + 1) (d + p.compounding.periodDays)
          (stepBal p base bal) (cum + stepPay p base bal)).length < f := by
        simp only [List.length_cons] at h
        omega
      have hne : loopAux p base f (k + 1) (d + p.compounding.periodDays)
          (stepBal p base bal) (cum + stepPay p base bal) ≠ [] := by
        apply loopAux_ne_nil
        omega
      obtain ⟨b, l, hbl⟩ := List.exists_cons_of_ne_nil hne
      rw [hbl, List.map_cons, List.map_cons, List.getLast?_cons_cons, ← List.map_cons, ← hbl]
      exact ih _ _ _ _ hlen

theorem loopAux_cash_head (p : LoanParams) (base : ℚ) (k : ℕ) (d : ℤ)
    (bal cum : ℚ) :
    RawRow.cash ⟨k, d, base, stepPrincipal p base bal, stepInterest p bal,
      stepExtra p base bal, p.insurancePerPeriod, stepBal p base bal,
      cum + stepPay p base bal⟩ = stepPay p base bal := by
  simp [RawRow.cash, stepPay]

theorem loopAux_last_cumulative (p : LoanParams) (base : ℚ) :
    ∀ (fuel k : ℕ) (d : ℤ) (bal cum : ℚ), 0 < fuel →
      ((loopAux p base fuel k d bal cum).map RawRow.cumulative).getLast?
        = some (cum + ((loopAux p base fuel k d bal cum).map RawRow.cash).sum) := by
  intro fuel
  induction fuel with
  | zero => intro k d bal cum h; omega
  | succ f ih =>
    intro k d bal cum _
    simp only [loopAux]
    by_cases hstop : stepBal p base bal ≤ 0
    · rw [if_pos hstop]
      simp [RawRow.cash, stepPay]
    · rw [if_neg hstop]
      rcases Nat.eq_zero_or_pos f with hf0 | hf
      · subst hf0
        simp [loopAux, RawRow.cash, stepPay]
      · have hne : loopAux p base f (k + 1) (d + p.compounding.periodDays)
            (stepBal p base bal) (cum + stepPay p base bal) ≠ [] :=
          loopAux_ne_nil p base _ _ _ _ hf
        obtain ⟨b, l, hbl⟩ := List.exists_cons_of_ne_nil hne
        rw [hbl, List.map_cons, List.map_cons, List.getLast?_cons_cons,
          ← List.map_cons, ← hbl, ih _ _ _ _ hf]
        rw [hbl]
        simp only [List.map_cons, List.sum_cons, loopAux_cash_head]
        congr 1
        ring

theorem loopAux_cumulative_prefix (p : LoanParams) (base : ℚ) :
    ∀ (fuel : ℕ) (i k : ℕ) (d : ℤ) (bal cum : ℚ),
      i < (loopAux p base fuel k d bal cum).length →
      ((loopAux p base fuel k d bal cum).map RawRow.cumulative)[i]?
        = some (cum
          + (((loopAux p base fuel k d bal cum).map RawRow.cash).take (i + 1)).sum) := by
  intro fuel
  induction fuel with
  | zero => intro i k d bal cum h; simp [loopAux] at h
  | succ f ih =>
    intro i k d bal cum h
    simp only [loopAux] at h ⊢
    cases i with
    | zero =>
      simp only [List.map_cons, List.getElem?_cons_zero, List.take_succ_cons,
        List.take_zero, List.sum_cons, List.sum_nil, loopAux_cash_head]
      rw [add_zero]
    | succ i =>
      by_cases hstop : stepBal p base bal ≤ 0
      · rw [if_pos hstop] at h
        simp at h
      · rw [if_neg hstop] at h ⊢
        simp only [List.length_cons] at h
        have hi : i < (loopAux p base f (k + 1) (d + p.compounding.periodDays)
            (stepBal p base bal) (cum + stepPay p base bal)).length := by omega
        simp only [List.map_cons, List.getElem?_cons_succ, List.take_succ_cons,
          List.sum_cons, loopAux_cash_head]
        rw [ih _ _ _ _ _ hi]
        congr 1
        ring

theorem loopAux_interest_zero (p : LoanParams)
    (hflat : p.flatInterest = false) (hr : periodRate p = 0) (base : ℚ) :
    ∀ (fuel k : ℕ) (d : ℤ) (bal cum : ℚ),
      ∀ r ∈ loopAux p base fuel k d bal cum, r.interest = 0 := by
  intro fuel
  induction fuel with
  | zero => intro k d bal cum r hr'; simp [loopAux] at hr'
  | succ f ih =>
    intro k d bal cum r hr'
    simp only [loopAux, List.mem_cons] at hr'
    rcases hr' with hr' | hr'
    · rw [hr']
      simp [stepInterest, hflat, hr]
    · split at hr'
      · simp at hr'
      · exact ih _ _ _ _ r hr'

theorem loopAux_dropLast_principal (p : LoanParams)
    (hflat : p.flatInterest = false) (hr : periodRate p = 0)
    (he : 0 ≤ p.extraPerPeriod) (base : ℚ) :
    ∀ (fuel k : ℕ) (d : ℤ) (bal cum : ℚ),
      ∀ r ∈ (loopAux p base fuel k d bal cum).dropLast,
        r.principalComp = base := by
  intro fuel
  induction fuel with
  | zero => intro k d bal cum r hr'; simp [loopAux] at hr'
  | succ f ih =>
    intro k d bal cum r hr'
    have hint : stepInterest p bal = 0 := by simp [stepInterest, hflat, hr]
    simp only [loopAux] at hr'
    by_cases hstop : stepBal p base bal ≤ 0
    · rw [if_pos hstop] at hr'
      simp at hr'
    · rw [if_neg hstop] at hr'
      have hble : base ≤ bal := by
        by_contra hgt
        push_neg at hgt
        have hpc : stepPrincipal p base bal = bal := by
          rw [stepPrincipal, hint, sub_zero]
          exact min_eq_right hgt.le
        have hex : stepExtra p base bal = 0 := by
          rw [stepExtra, hpc, sub_self, max_self]
          exact min_eq_right he
        have : stepBal p base bal = 0 := by
          rw [stepBal, hpc, hex, sub_zero, sub_self, max_self]
        exact hstop (le_of_eq this)
      have hpc : stepPrincipal p base bal = base := by
        rw [stepPrincipal, hint, sub_zero]
        exact min_eq_left hble
      have hne : loopAux p base f (k + 1) (d + p.compounding.periodDays)
          (stepBal p base bal) (cum + stepPay p base bal) ≠ [] ∨
          loopAux p base f (k + 1) (d + p.compounding.periodDays)
          (stepBal p base bal) (cum + stepPay p base bal) = [] := by tauto
      rcases hne with hne | hnil
      · obtain ⟨b, l, hbl⟩ := List.exists_cons_of_ne_nil hne
        rw [hbl, List.dropLast_cons₂] at hr'
        rcases List.mem_cons.mp hr' with hr' | hr'
        · rw [hr']
          exact hpc
        · rw [← hbl] at hr'
          exact ih _ _ _ _ r hr'
      · rw [hnil] at hr'
        simp at hr'

/-! ### Valid parameter sets and the ideal balance bound -/

/-- Non-negative monetary inputs and a positive integer term, as required of
callers by the design document (§3 and §6). -/
structure ValidParams (p : LoanParams) : Prop where
  hprincipal : 0 ≤ p.principal
  hrate : 0 ≤ p.annualRatePct
  hyears : 1 ≤ p.years
  hextra : 0 ≤ p.extraPerPeriod
  hfeesFlat : 0 ≤ p.feesFlat
  hfeesPct : 0 ≤ p.feesPct
  hinsurance : 0 ≤ p.insurancePerPeriod

theorem periodsPerYear_pos (c : Compounding) : 1 ≤ c.periodsPerYear := by
  cases c <;> simp [Compounding.periodsPerYear]

theorem totalPeriods_pos (p : LoanParams) : 1 ≤ totalPeriods p :=
  le_max_left 1 _

theorem totalPeriods_cast_pos (p : LoanParams) : (0 : ℚ) < (totalPeriods p : ℚ) := by
  exact_mod_cast Nat.lt_of_lt_of_le Nat.zero_lt_one (totalPeriods_pos p)

theorem totalPeriods_eq_mul (p : LoanParams) (hy : 1 ≤ p.years) :
    totalPeriods p = p.years * p.compounding.periodsPerYear := by
  have h1 := periodsPerYear_pos p.compounding
  have : 1 ≤ p.years * p.compounding.periodsPerYear := by
    calc 1 = 1 * 1 := by omega
      _ ≤ p.years * p.compounding.periodsPerYear := Nat.mul_le_mul hy h1
  exact max_eq_right this

theorem periodRate_nonneg (p : LoanParams) (h : 0 ≤ p.annualRatePct) :
    0 ≤ periodRate p :=
  div_nonneg (div_nonneg h (by norm_num)) (Nat.cast_nonneg _)

theorem ValidParams.P_nonneg {p : LoanParams} (H : ValidParams p) :
    0 ≤ principalWithFees p := by
  unfold principalWithFees
  have h1 : 0 ≤ p.principal * (p.feesPct / 100) :=
    mul_nonneg H.hprincipal (div_nonneg H.hfeesPct (by norm_num))
  linarith [H.hprincipal, H.hfeesFlat]

theorem rate_zero_of_periodRate_zero (p : LoanParams) (h : periodRate p = 0) :
    p.annualRatePct = 0 := by
  unfold periodRate at h
  have hppy : ((p.compounding.periodsPerYear : ℚ)) ≠ 0 := by
    have := periodsPerYear_pos p.compounding
    exact_mod_cast by omega
  rcases div_eq_zero_iff.mp h with h' | h'
  · rcases div_eq_zero_iff.mp h' with h'' | h''
    · exact h''
    · norm_num at h''
  · exact absurd h' hppy

/-- The ideal remaining balance after `k` periods when payments follow the
schedule exactly and no extra payment is made; the running balance of the
loop never exceeds it. -/
def idealBal (p : LoanParams) (k : ℕ) : ℚ :=
  if p.flatInterest = true ∨ periodRate p = 0 then
    principalWithFees p - (k : ℚ) * (principalWithFees p / (totalPeriods p : ℚ))
  else
    principalWithFees p *
      (((1 + periodRate p) ^ totalPeriods p - (1 + periodRate p) ^ k)
        / ((1 + periodRate p) ^ totalPeriods p - 1))

theorem annuity_pow_gt_one (p : LoanParams) (hr0 : 0 ≤ p.annualRatePct)
    (hr : periodRate p ≠ 0) :
    1 < (1 + periodRate p) ^ totalPeriods p := by
  have hrpos : 0 < periodRate p :=
    lt_of_le_of_ne (periodRate_nonneg p hr0) (Ne.symm hr)
  exact one_lt_pow₀ (by linarith) (by have := totalPeriods_pos p; omega)

theorem idealBal_zero (p : LoanParams) (H : ValidParams p) :
    idealBal p 0 = principalWithFees p := by
  unfold idealBal
  split_ifs with h
  · simp
  · push_neg at h
    have hX := annuity_pow_gt_one p H.hrate h.2
    rw [pow_zero, div_self (by linarith : (1 + periodRate p) ^ totalPeriods p - 1 ≠ 0)]
    ring

theorem idealBal_totalPeriods (p : LoanParams) (H : ValidParams p) :
    idealBal p (totalPeriods p) = 0 := by
  unfold idealBal
  split_ifs with h
  · have hn : ((totalPeriods p : ℚ)) ≠ 0 := ne_of_gt (totalPeriods_cast_pos p)
    field_simp
  · simp [sub_self]

theorem idealBal_nonneg (p : LoanParams) (H : ValidParams p) {k : ℕ}
    (hk : k ≤ totalPeriods p) : 0 ≤ idealBal p k := by
  have hP := H.P_nonneg
  unfold idealBal
  split_ifs with h
  · have hdiv : 0 ≤ principalWithFees p / (totalPeriods p : ℚ) :=
      div_nonneg hP (le_of_lt (totalPeriods_cast_pos p))
    have hk' : (k : ℚ) ≤ (totalPeriods p : ℚ) := Nat.cast_le.mpr hk
    have h1 : (k : ℚ) * (principalWithFees p / (totalPeriods p : ℚ))
        ≤ (totalPeriods p : ℚ) * (principalWithFees p / (totalPeriods p : ℚ)) :=
      mul_le_mul_of_nonneg_right hk' hdiv
    have h2 : (totalPeriods p : ℚ) * (principalWithFees p / (totalPeriods p : ℚ))
        = principalWithFees p := by
      rw [mul_comm, div_mul_cancel₀ _ (ne_of_gt (totalPeriods_cast_pos p))]
    linarith
  · push_neg at h
    have hX := annuity_pow_gt_one p H.hrate h.2
    have hrnn := periodRate_nonneg p H.hrate
    have hpow : (1 + periodRate p) ^ k ≤ (1 + periodRate p) ^ totalPeriods p :=
      pow_le_pow_right₀ (by linarith) hk
    exact mul_nonneg hP (div_nonneg (by linarith) (by linarith))

theorem idealBal_le_P (p : LoanParams) (H : ValidParams p) (k : ℕ) :
    idealBal p k ≤ principalWithFees p := by
  have hP := H.P_nonneg
  unfold idealBal
  split_ifs with h
  · have hdiv : 0 ≤ principalWithFees p / (totalPeriods p : ℚ) :=
      div_nonneg hP (le_of_lt (totalPeriods_cast_pos p))
    have := mul_nonneg (Nat.cast_nonneg (α := ℚ) k) hdiv
    linarith
  · push_neg at h
    have hX := annuity_pow_gt_one p H.hrate h.2
    have hrnn := periodRate_nonneg p H.hrate
    have hone : (1 : ℚ) ≤ (1 + periodRate p) ^ k := by
      have := pow_le_pow_right₀ (by linarith : (1:ℚ) ≤ 1 + periodRate p) (Nat.zero_le k)
      rwa [pow_zero] at this
    have hratio : ((1 + periodRate p) ^ totalPeriods p - (1 + periodRate p) ^ k)
        / ((1 + periodRate p) ^ totalPeriods p - 1) ≤ 1 := by
      rw [div_le_one (by linarith)]
      linarith
    calc principalWithFees p * (((1 + periodRate p) ^ totalPeriods p
          - (1 + periodRate p) ^ k) / ((1 + periodRate p) ^ totalPeriods p - 1))
        ≤ principalWithFees p * 1 := mul_le_mul_of_nonneg_left hratio hP
      _ = principalWithFees p := mul_one _

theorem basePayment_of_rate_zero (p : LoanParams) (hr : periodRate p = 0) :
    basePayment p = principalWithFees p / (totalPeriods p : ℚ) := by
  have hrate := rate_zero_of_periodRate_zero p hr
  unfold basePayment
  split_ifs with hflat
  · rw [hrate]
    norm_num
  · rfl

theorem basePayment_flat_sub_interest (p : LoanParams) (H : ValidParams p)
    (hflat : p.flatInterest = true) :
    basePayment p - principalWithFees p * periodRate p
      = principalWithFees p / (totalPeriods p : ℚ) := by
  unfold basePayment periodRate
  rw [if_pos hflat, totalPeriods_eq_mul p H.hyears]
  have hy : ((p.years : ℚ)) ≠ 0 := Nat.cast_ne_zero.mpr (by have := H.hyears; omega)
  have hppy : ((p.compounding.periodsPerYear : ℚ)) ≠ 0 :=
    Nat.cast_ne_zero.mpr (by have := periodsPerYear_pos p.compounding; omega)
  push_cast
  field_simp
  ring

theorem basePayment_annuity (p : LoanParams) (hflat : p.flatInterest = false)
    (hr : periodRate p ≠ 0) :
    basePayment p = principalWithFees p * periodRate p
        * (1 + periodRate p) ^ totalPeriods p
        / ((1 + periodRate p) ^ totalPeriods p - 1) := by
  unfold basePayment
  rw [if_neg (by simp [hflat]), if_neg hr]

theorem idealBal_succ_flat (p : LoanParams)
    (h : p.flatInterest = true ∨ periodRate p = 0) (k : ℕ) :
    idealBal p (k + 1)
      = idealBal p k - principalWithFees p / (totalPeriods p : ℚ) := by
  unfold idealBal
  rw [if_pos h, if_pos h]
  push_cast
  ring

theorem idealBal_succ_annuity (p : LoanParams) (H : ValidParams p)
    (h : ¬(p.flatInterest = true ∨ periodRate p = 0)) (k : ℕ) :
    idealBal p (k + 1)
      = idealBal p k * (1 + periodRate p) - basePayment p := by
  push_neg at h
  have hX := annuity_pow_gt_one p H.hrate h.2
  have hden : (1 + periodRate p) ^ totalPeriods p - 1 ≠ 0 := by linarith
  rw [basePayment_annuity p (by simpa using h.1) h.2]
  unfold idealBal
  rw [if_neg (by tauto), if_neg (by tauto), pow_succ]
  field_simp
  ring

theorem base_sub_interest_nonneg (p : LoanParams) (H : ValidParams p)
    {bal : ℚ} (hb0 : 0 ≤ bal) (hbP : bal ≤ principalWithFees p) :
    0 ≤ basePayment p - stepInterest p bal := by
  have hP := H.P_nonneg
  have hn := totalPeriods_cast_pos p
  by_cases hflat : p.flatInterest = true
  · rw [stepInterest, if_pos hflat, basePayment_flat_sub_interest p H hflat]
    exact div_nonneg hP (le_of_lt hn)
  · rw [stepInterest, if_neg hflat]
    by_cases hr : periodRate p = 0
    · rw [hr, mul_zero, sub_zero, basePayment_of_rate_zero p hr]
      exact div_nonneg hP (le_of_lt hn)
    · have hrpos : 0 < periodRate p :=
        lt_of_le_of_ne (periodRate_nonneg p H.hrate) (Ne.symm hr)
      have hX := annuity_pow_gt_one p H.hrate hr
      have hPr : 0 ≤ principalWithFees p * periodRate p :=
        mul_nonneg hP hrpos.le
      have h1 : principalWithFees p * periodRate p ≤ basePayment p := by
        rw [basePayment_annuity p (by simpa using hflat) hr]
        rw [le_div_iff₀ (by linarith : (0:ℚ) < (1 + periodRate p) ^ totalPeriods p - 1)]
        nlinarith [hPr]
      have h2 : bal * periodRate p ≤ principalWithFees p * periodRate p :=
        mul_le_mul_of_nonneg_right hbP hrpos.le
      linarith

theorem stepPrincipal_nonneg (p : LoanParams) (H : ValidParams p)
    {bal : ℚ} (hb0 : 0 ≤ bal) (hbP : bal ≤ principalWithFees p) :
    0 ≤ stepPrincipal p (basePayment p) bal :=
  le_min (base_sub_interest_nonneg p H hb0 hbP) hb0

theorem stepExtra_nonneg (p : LoanParams) (H : ValidParams p) (base bal : ℚ) :
    0 ≤ stepExtra p base bal :=
  le_min H.hextra (le_max_left 0 _)

theorem stepExtra_le (p : LoanParams) (base : ℚ) {bal : ℚ}
    (hb0 : 0 ≤ bal) :
    stepExtra p base bal ≤ bal - stepPrincipal p base bal := by
  have hpc : stepPrincipal p base bal ≤ bal := min_le_right _ _
  calc stepExtra p base bal ≤ max 0 (bal - stepPrincipal p base bal) :=
        min_le_right _ _
    _ = bal - stepPrincipal p base bal := max_eq_right (by linarith)

theorem stepBal_eq (p : LoanParams) (base : ℚ) {bal : ℚ} (hb0 : 0 ≤ bal) :
    stepBal p base bal
      = bal - stepPrincipal p base bal - stepExtra p base bal := by
  rw [stepBal]
  exact max_eq_right (by linarith [stepExtra_le p base hb0])

theorem stepBal_le_bal (p : LoanParams) (H : ValidParams p) {bal : ℚ}
    (hb0 : 0 ≤ bal) (hbP : bal ≤ principalWithFees p) :
    stepBal p (basePayment p) bal ≤ bal := by
  rw [stepBal_eq p (basePayment p) hb0]
  linarith [stepPrincipal_nonneg p H hb0 hbP,
    stepExtra_nonneg p H (basePayment p) bal]

theorem stepBal_le_idealBal (p : LoanParams) (H : ValidParams p) {j : ℕ}
    (hj : j + 1 ≤ totalPeriods p) {bal : ℚ} (hb0 : 0 ≤ bal)
    (hideal : bal ≤ idealBal p j) :
    stepBal p (basePayment p) bal ≤ idealBal p (j + 1) := by
  have hidnn : 0 ≤ idealBal p (j + 1) := idealBal_nonneg p H hj
  have hextra0 : 0 ≤ stepExtra p (basePayment p) bal :=
    stepExtra_nonneg p H _ _
  have hbase_sub : bal - stepPrincipal p (basePayment p) bal
      = max (bal - (basePayment p - stepInterest p bal)) 0 := by
    rcases le_total (basePayment p - stepInterest p bal) bal with hle | hle
    · rw [stepPrincipal, min_eq_left hle, max_eq_left (by linarith)]
    · rw [stepPrincipal, min_eq_right hle, sub_self, max_eq_right (by linarith)]
  have h1 : stepBal p (basePayment p) bal
      ≤ max 0 (bal - stepPrincipal p (basePayment p) bal) :=
    max_le_max le_rfl (by linarith)
  have hkey : bal - (basePayment p - stepInterest p bal) ≤ idealBal p (j + 1) := by
    by_cases hcase : p.flatInterest = true ∨ periodRate p = 0
    · have hc : basePayment p - stepInterest p bal
          = principalWithFees p / (totalPeriods p : ℚ) := by
        rcases hcase with hflat | hr
        · rw [stepInterest, if_pos hflat]
          exact basePayment_flat_sub_interest p H hflat
        · rw [basePayment_of_rate_zero p hr, stepInterest]
          split_ifs <;> rw [hr, mul_zero, sub_zero]
      rw [hc, idealBal_succ_flat p hcase j]
      linarith
    · have hflat1 : ¬(p.flatInterest = true) := by tauto
      rw [stepInterest, if_neg hflat1, idealBal_succ_annuity p H hcase j]
      have hr1 : (0:ℚ) ≤ 1 + periodRate p := by
        have := periodRate_nonneg p H.hrate
        linarith
      have h2 := mul_le_mul_of_nonneg_right hideal hr1
      ring_nf at h2 ⊢
      linarith
  calc stepBal p (basePayment p) bal
      ≤ max 0 (bal - stepPrincipal p (basePayment p) bal) := h1
    _ = max 0 (max (bal - (basePayment p - stepInterest p bal)) 0) := by
        rw [hbase_sub]
    _ ≤ idealBal p (j + 1) := max_le hidnn (max_le hkey hidnn)

theorem loop_invariant (p : LoanParams) (H : ValidParams p) :
    ∀ (fuel j k : ℕ) (d : ℤ) (bal cum : ℚ),
      fuel + j = totalPeriods p → 0 ≤ bal → bal ≤ idealBal p j →
      List.Chain (fun a b => b ≤ a) bal
          ((loopAux p (basePayment p) fuel k d bal cum).map RawRow.balance)
      ∧ (∀ r ∈ loopAux p (basePayment p) fuel k d bal cum, 0 ≤ r.balance)
      ∧ (0 < fuel →
          ((loopAux p (basePayment p) fuel k d bal cum).map RawRow.balance).getLast?
            = some 0)
      ∧ (0 < fuel →
          ((loopAux p (basePayment p) fuel k d bal cum).map
              (fun r => r.principalComp + r.extra)).sum = bal) := by
  intro fuel
  induction fuel with
  | zero =>
    intro j k d bal cum hfj hb0 hideal
    refine ⟨?_, ?_, by omega, by omega⟩
    · simp only [loopAux, List.map_nil]
      exact List.Chain.nil
    · intro r hr
      simp [loopAux] at hr
  | succ f ih =>
    intro j k d bal cum hfj hb0 hideal
    have hjn : j + 1 ≤ totalPeriods p := by omega
    have hbP : bal ≤ principalWithFees p := hideal.trans (idealBal_le_P p H j)
    have hBideal : stepBal p (basePayment p) bal ≤ idealBal p (j + 1) :=
      stepBal_le_idealBal p H hjn hb0 hideal
    have hB0 : 0 ≤ stepBal p (basePayment p) bal := stepBal_nonneg p _ bal
    have hBbal : stepBal p (basePayment p) bal ≤ bal := stepBal_le_bal p H hb0 hbP
    have hBeq : stepBal p (basePayment p) bal
        = bal - stepPrincipal p (basePayment p) bal
          - stepExtra p (basePayment p) bal := stepBal_eq p _ hb0
    simp only [loopAux]
    by_cases hstop : stepBal p (basePayment p) bal ≤ 0
    · rw [if_pos hstop]
      have hBz : stepBal p (basePayment p) bal = 0 := le_antisymm hstop hB0
      refine ⟨?_, ?_, ?_, ?_⟩
      · simp only [List.map_cons, List.map_nil]
        exact List.Chain.cons hBbal List.Chain.nil
      · intro r hr
        simp only [List.mem_cons, List.not_mem_nil, or_false] at hr
        rw [hr]
        exact hB0
      · intro _
        simp [hBz]
      · intro _
        simp only [List.map_cons, List.map_nil, List.sum_cons, List.sum_nil]
        linarith [hBeq, hBz]
    · rw [if_neg hstop]
      have hf : 0 < f := by
        rcases Nat.eq_zero_or_pos f with hf0 | hf
        · exfalso
          apply hstop
          have hjn' : j + 1 = totalPeriods p := by omega
          rw [hjn', idealBal_totalPeriods p H] at hBideal
          exact hBideal
        · exact hf
      obtain ⟨ihChain, ihNonneg, ihLast, ihSum⟩ :=
        ih (j + 1) (k + 1) (d + p.compounding.periodDays)
          (stepBal p (basePayment p) bal) (cum + stepPay p (basePayment p) bal)
          (by omega) hB0 hBideal
      have hne : loopAux p (basePayment p) f (k + 1) (d + p.compounding.periodDays)
          (stepBal p (basePayment p) bal) (cum + stepPay p (basePayment p) bal)
          ≠ [] := loopAux_ne_nil p (basePayment p) (k + 1) _ _ _ hf
      refine ⟨?_, ?_, ?_, ?_⟩
      · simp only [List.map_cons]
        exact List.Chain.cons hBbal ihChain
      · intro r hr
        rcases List.mem_cons.mp hr with hr | hr
        · rw [hr]
          exact hB0
        · exact ihNonneg r hr
      · intro _
        obtain ⟨b, l, hbl⟩ := List.exists_cons_of_ne_nil hne
        rw [hbl, List.map_cons, List.map_cons, List.getLast?_cons_cons,
          ← List.map_cons, ← hbl]
        exact ihLast hf
      · intro _
        simp only [List.map_cons, List.sum_cons]
        rw [ihSum hf]
        linarith [hBeq]

/-! ### Bridging the loop facts to `compute_schedule` -/

theorem compute_schedule_fst (p : LoanParams) :
    (compute_schedule p).1 = (rawRows p).map roundRow := rfl

theorem rawRows_ne_nil (p : LoanParams) : rawRows p ≠ [] :=
  loopAux_ne_nil p (basePayment p) 1 p.startDate (principalWithFees p) 0
    (by have := totalPeriods_pos p; omega)

theorem rawRows_invariant (p : LoanParams) (H : ValidParams p) :
    List.Chain (fun a b => b ≤ a) (principalWithFees p)
        ((rawRows p).map RawRow.balance)
    ∧ (∀ r ∈ rawRows p, 0 ≤ r.balance)
    ∧ ((rawRows p).map RawRow.balance).getLast? = some 0
    ∧ ((rawRows p).map (fun r => r.principalComp + r.extra)).sum
        = principalWithFees p := by
  have h := loop_invariant p H (totalPeriods p) 0 1 p.startDate
    (principalWithFees p) 0 (by omega) H.P_nonneg
    (le_of_eq (idealBal_zero p H).symm)
  obtain ⟨h1, h2, h3, h4⟩ := h
  have hn : 0 < totalPeriods p := by have := totalPeriods_pos p; omega
  exact ⟨h1, h2, h3 hn, h4 hn⟩

theorem chain_imp_chain' {α : Type} {R : α → α → Prop} {a : α} {l : List α}
    (h : List.Chain R a l) : List.Chain' R l := by
  cases h with
  | nil => exact trivial
  | cons hab h' => exact h'

theorem summaryOf_fields (p : LoanParams) {sched : List Row} (h : sched ≠ []) :
    (summaryOf p sched).totalInterest = round2 ((sched.map Row.interest).sum)
    ∧ (summaryOf p sched).totalExtra = round2 ((sched.map Row.extra).sum)
    ∧ (summaryOf p sched).totalInsurance
        = round2 ((sched.map Row.insurance).sum)
    ∧ (summaryOf p sched).totalPaid = round2 ((sched.map Row.payment).sum
        + (sched.map Row.extra).sum + (sched.map Row.insurance).sum)
    ∧ (summaryOf p sched).tenure = sched.length := by
  obtain ⟨f0, rest, rfl⟩ := List.exists_cons_of_ne_nil h
  exact ⟨rfl, rfl, rfl, rfl, rfl⟩

/-! ### Concrete parameter sets used in scenarios and counterexamples -/

/-- 100000 at 0 percent for 1 year, monthly, reducing balance, no options. -/
def zeroRateParams : LoanParams :=
  ⟨100000, 0, 1, 0, .monthly, false, 0, 0, 0, 0⟩

/-- 100000 at 0 percent for 1 year, monthly, reducing balance, with an
extra payment of 50000 per period. -/
def zeroRateExtraParams : LoanParams :=
  ⟨100000, 0, 1, 0, .monthly, false, 50000, 0, 0, 0⟩

/-- The flat-interest scenario of §8: 100000 at 10 percent for 1 year,
monthly compounding, flat interest. -/
def flatParams : LoanParams :=
  ⟨100000, 10, 1, 0, .monthly, true, 0, 0, 0, 0⟩

/-- The reducing-balance scenario of §8: 2500000 at 9 percent for 20 years,
monthly compounding, no options. -/
def annuityParams : LoanParams :=
  ⟨2500000, 9, 20, 0, .monthly, false, 0, 0, 0, 0⟩

/-- The same scenario with an extra payment of 5000 per period. -/
def annuityExtraParams : LoanParams :=
  ⟨2500000, 9, 20, 0, .monthly, false, 5000, 0, 0, 0⟩

/-! ### The claims -/

/-- Claim C2, counterexample: in the flat-interest scenario
(principal 100000, rate 10 percent, 1 year, monthly) the summary's
`Total Interest` is 9999.96, not the exact 10000 the claim states:
the per-period interest 833.33... is rounded to 833.33 in every record
before the fields are summed. -/
theorem C2_totalInterest_ne_10000 :
    (compute_schedule flatParams).2.totalInterest ≠ 10000 :=
  of_decide_eq_true (by with_unfolding_all rfl)

set_option maxRecDepth 40000 in
/-- Claim C2 (amended): in the flat-interest scenario the schedule has 12
records, every record's `interestComponent` is `round2` of
100000 × 0.10 / 12, that is 833.33, and the summary's `Total Interest` is
9999.96 = `round2` of the sum of the rounded per-record interest fields,
not the analytic 10000. -/
theorem C2_flat_scenario :
    (compute_schedule flatParams).1.length = 12
    ∧ (∀ row ∈ (compute_schedule flatParams).1, row.interest = 83333 / 100)
    ∧ (compute_schedule flatParams).2.totalInterest = 249999 / 25 := by
  refine ⟨of_decide_eq_true (by with_unfolding_all rfl), ?_, ?_⟩
  · have h : ∀ row ∈ (compute_schedule flatParams).1,
        row.interest ≤ 83333 / 100 ∧ 83333 / 100 ≤ row.interest :=
      of_decide_eq_true (by with_unfolding_all rfl)
    exact fun row hrow => le_antisymm (h row hrow).1 (h row hrow).2
  · exact le_antisymm (of_decide_eq_true (by with_unfolding_all rfl))
      (of_decide_eq_true (by with_unfolding_all rfl))

set_option maxRecDepth 1000000 in
/-- Claim C9: with principal 2500000, rate 9 percent, 20 years, monthly,
reducing balance and no fees/insurance, the no-extra schedule runs the full
240 periods, while an extra payment of 5000 per period strictly shortens
the tenure and strictly reduces the summary's `Total Interest`. -/
theorem C9_extra_payment_shortens :
    (compute_schedule annuityParams).2.tenure = 240
    ∧ (compute_schedule annuityExtraParams).2.tenure < 240
    ∧ (compute_schedule annuityExtraParams).2.totalInterest
        < (compute_schedule annuityParams).2.totalInterest :=
  of_decide_eq_true (by with_unfolding_all rfl)

set_option maxRecDepth 400000 in
/-- Claim C1, counterexample: with principal 100000, rate 0, 1 year,
monthly, extra 50000 per period, the last record's `cumulativePaid` is
100000.00 while the summary's `Total Paid` is 99999.99 (it sums the rounded
scheduled-payment field 8333.33 for both periods), so the two differ. -/
theorem C1_lastCumulative_ne_totalPaid :
    ((compute_schedule zeroRateExtraParams).1.map Row.cumulative).getLast?
      ≠ some (compute_schedule zeroRateExtraParams).2.totalPaid :=
  of_decide_eq_true (by with_unfolding_all rfl)

set_option maxRecDepth 400000 in
/-- Claim C5, counterexample: with principal 100000, rate 0, 1 year,
monthly and no options, the sum of the rounded `principalComponent` and
`extra` fields over the 12 records is 99999.96, which differs from the
adjusted principal 100000 by 0.04 > 0.01. -/
theorem C5_rounded_sum_off_by_more :
    ¬ |(((compute_schedule zeroRateParams).1.map
          (fun r => r.principalComp + r.extra)).sum)
        - principalWithFees zeroRateParams| ≤ 1 / 100 :=
  of_decide_eq_true (by with_unfolding_all rfl)

set_option maxRecDepth 400000 in
/-- Claim C8, counterexample: in the flat-interest scenario the second
record's `cumulativePaid` is 18333.33 = `round2` of the unrounded running
sum 2 × 9166.66(6), while accumulating the rounded per-period cash payments
would give 2 × 9166.67 = 18333.34: the running total is accumulated in
unrounded form and only rounded when the record is created. -/
theorem C8_cumulative_not_rounded_accumulation :
    ((compute_schedule flatParams).1.map Row.cumulative)[1]?
      ≠ some ((((rawRows flatParams).map (fun r => round2 r.cash)).take 2).sum) :=
  of_decide_eq_true (by with_unfolding_all rfl)

/-- Claim C1 (amended): for every parameter set, the last record's
`cumulativePaid` equals `round2` of the sum of the unrounded per-period
cash payments (principal + interest + extra + insurance); the summary's
`Total Paid` instead sums the rounded scheduled-payment, extra and
insurance fields, and the two can differ. -/
theorem C1_lastCumulative_eq_rounded_cash_sum (p : LoanParams) :
    ((compute_schedule p).1.map Row.cumulative).getLast?
      = some (round2 (((rawRows p).map RawRow.cash).sum)) := by
  have h : ((rawRows p).map RawRow.cumulative).getLast?
      = some (0 + ((rawRows p).map RawRow.cash).sum) :=
    loopAux_last_cumulative p (basePayment p) (totalPeriods p) 1 p.startDate
      (principalWithFees p) 0 (by have := totalPeriods_pos p; omega)
  have hmap : (compute_schedule p).1.map Row.cumulative
      = ((rawRows p).map RawRow.cumulative).map round2 := by
    rw [compute_schedule_fst, List.map_map, List.map_map]
    rfl
  rw [hmap, List.getLast?_map, h, Option.map_some', zero_add]

/-- Claim C3: for every valid parameter set (non-negative monetary inputs,
positive integer term) the rounded `balance` fields of the schedule are
monotonically non-increasing, never negative, and the last one is exactly 0
(hence certainly within the 0.01 tolerance the claim allows). -/
theorem C3_balance_invariants (p : LoanParams) (H : ValidParams p) :
    List.Chain' (fun a b => b ≤ a) ((compute_schedule p).1.map Row.balance)
    ∧ (∀ x ∈ (compute_schedule p).1.map Row.balance, 0 ≤ x)
    ∧ ((compute_schedule p).1.map Row.balance).getLast? = some 0 := by
  obtain ⟨h1, h2, h3, _⟩ := rawRows_invariant p H
  have hmap : (compute_schedule p).1.map Row.balance
      = ((rawRows p).map RawRow.balance).map round2 := by
    rw [compute_schedule_fst, List.map_map, List.map_map]
    rfl
  refine ⟨?_, ?_, ?_⟩
  · rw [hmap]
    exact (List.chain'_map round2).mpr
      ((chain_imp_chain' h1).imp (fun a b hab => round2_mono hab))
  · intro x hx
    rw [hmap] at hx
    obtain ⟨y, hy, rfl⟩ := List.mem_map.mp hx
    obtain ⟨r, hr, rfl⟩ := List.mem_map.mp hy
    exact round2_nonneg (h2 r hr)
  · rw [hmap, List.getLast?_map, h3, Option.map_some', round2_zero]

/-- Claim C4: for every parameter set the schedule has between 1 and
`totalPeriods` records; the loop never continues past a period whose
unrounded running balance is 0 (every non-last record has positive
balance), and whenever it stops before `totalPeriods` the final running
balance is 0. -/
theorem C4_record_count_and_early_stop (p : LoanParams) :
    1 ≤ (compute_schedule p).1.length
    ∧ (compute_schedule p).1.length ≤ totalPeriods p
    ∧ (∀ r ∈ (rawRows p).dropLast, 0 < r.balance)
    ∧ ((compute_schedule p).1.length < totalPeriods p →
        ((rawRows p).map RawRow.balance).getLast? = some 0) := by
  have hlen : (compute_schedule p).1.length = (rawRows p).length := by
    rw [compute_schedule_fst, List.length_map]
  have hne : rawRows p ≠ [] := rawRows_ne_nil p
  have hle : (rawRows p).length ≤ totalPeriods p :=
    loopAux_length_le p (basePayment p) (totalPeriods p) 1 p.startDate
      (principalWithFees p) 0
  refine ⟨?_, ?_, ?_, ?_⟩
  · rw [hlen]
    have := List.length_pos.mpr hne
    omega
  · rw [hlen]
    exact hle
  · exact loopAux_dropLast_balance_pos p (basePayment p) (totalPeriods p) 1
      p.startDate (principalWithFees p) 0
  · intro hlt
    rw [hlen] at hlt
    exact loopAux_early_stop p (basePayment p) (totalPeriods p) 1 p.startDate
      (principalWithFees p) 0 hlt

/-- Claim C5 (amended): for every valid parameter set the sum of the
unrounded per-period `principalComponent + extra` amounts equals the
adjusted principal exactly; the sum of the rounded record fields can be
farther away than the 0.01 the claim allows (0.005 per record can
accumulate). -/
theorem C5_raw_principal_extra_sum_exact (p : LoanParams) (H : ValidParams p) :
    ((rawRows p).map (fun r => r.principalComp + r.extra)).sum
      = principalWithFees p :=
  (rawRows_invariant p H).2.2.2

/-- Written from the specification's wording (§4.2): the scheduled payment
the Payment Formula Selector must return — flat-interest formula when
`flatInterest`, straight-line division at zero period rate, otherwise the
standard annuity formula. -/
def specScheduledPayment (p : LoanParams) : ℚ :=
  if p.flatInterest then
    (principalWithFees p
      + principalWithFees p * (p.annualRatePct / 100) * (p.years : ℚ))
      / (totalPeriods p : ℚ)
  else if periodRate p = 0 then
    principalWithFees p / (totalPeriods p : ℚ)
  else
    principalWithFees p * periodRate p * (1 + periodRate p) ^ totalPeriods p
      / ((1 + periodRate p) ^ totalPeriods p - 1)

/-- Claim C6: the base payment computed by the code coincides with the
piecewise formula stated by the specification, every record's `payment`
field is its 2-decimal rounding, and the summary's `EMI/Payment` equals the
same rounded value. -/
theorem C6_payment_formula_selection (p : LoanParams) :
    basePayment p = specScheduledPayment p
    ∧ (∀ row ∈ (compute_schedule p).1,
        row.payment = round2 (specScheduledPayment p))
    ∧ (compute_schedule p).2.emi = round2 (specScheduledPayment p) := by
  have hbase : basePayment p = specScheduledPayment p := rfl
  refine ⟨hbase, ?_, ?_⟩
  · intro row hrow
    rw [compute_schedule_fst] at hrow
    obtain ⟨r, hr, rfl⟩ := List.mem_map.mp hrow
    have hpay : r.payment = basePayment p :=
      loopAux_payment p (basePayment p) (totalPeriods p) 1 p.startDate
        (principalWithFees p) 0 r hr
    show round2 r.payment = round2 (specScheduledPayment p)
    rw [hpay, hbase]
  · obtain ⟨r0, raws, hraw⟩ := List.exists_cons_of_ne_nil (rawRows_ne_nil p)
    have hr0pay : r0.payment = basePayment p :=
      loopAux_payment p (basePayment p) (totalPeriods p) 1 p.startDate
        (principalWithFees p) 0 r0 (by
          show r0 ∈ rawRows p
          rw [hraw]
          exact List.mem_cons_self r0 raws)
    show (summaryOf p ((rawRows p).map roundRow)).emi
      = round2 (specScheduledPayment p)
    rw [hraw, List.map_cons]
    show round2 (round2 r0.payment) = round2 (specScheduledPayment p)
    rw [round2_round2, hr0pay, hbase]

/-- Claim C7: with a zero annual rate and the reducing-balance method,
every record's `interestComponent` is 0 and every record except possibly
the last has `principalComponent` equal to `round2` of
adjustedPrincipal / totalPeriods. -/
theorem C7_zero_rate_schedule (p : LoanParams) (hrate : p.annualRatePct = 0)
    (hflat : p.flatInterest = false) (hextra : 0 ≤ p.extraPerPeriod) :
    (∀ row ∈ (compute_schedule p).1, row.interest = 0)
    ∧ (∀ row ∈ (compute_schedule p).1.dropLast,
        row.principalComp
          = round2 (principalWithFees p / (totalPeriods p : ℚ))) := by
  have hr0 : periodRate p = 0 := by
    unfold periodRate
    rw [hrate]
    norm_num
  constructor
  · intro row hrow
    rw [compute_schedule_fst] at hrow
    obtain ⟨r, hr, rfl⟩ := List.mem_map.mp hrow
    have := loopAux_interest_zero p hflat hr0 (basePayment p) (totalPeriods p)
      1 p.startDate (principalWithFees p) 0 r hr
    show round2 r.interest = 0
    rw [this, round2_zero]
  · intro row hrow
    rw [compute_schedule_fst, ← List.map_dropLast] at hrow
    obtain ⟨r, hr, rfl⟩ := List.mem_map.mp hrow
    have hpc := loopAux_dropLast_principal p hflat hr0 hextra (basePayment p)
      (totalPeriods p) 1 p.startDate (principalWithFees p) 0 r hr
    show round2 r.principalComp
      = round2 (principalWithFees p / (totalPeriods p : ℚ))
    rw [hpc, basePayment_of_rate_zero p hr0]

/-- Claim C8 (amended): every monetary field is rounded when the record is
created, and each summary total is `round2` of the sum of the
already-rounded per-record fields; the `cumulativePaid` field, however, is
the rounding of a running total accumulated in unrounded form (`round2` of
the sum of the unrounded cash payments so far), not a sum of rounded
values. -/
theorem C8_totals_from_rounded_fields (p : LoanParams) :
    (compute_schedule p).2.totalInterest
        = round2 (((rawRows p).map (fun r => round2 r.interest)).sum)
    ∧ (compute_schedule p).2.totalExtra
        = round2 (((rawRows p).map (fun r => round2 r.extra)).sum)
    ∧ (compute_schedule p).2.totalInsurance
        = round2 (((rawRows p).map (fun r => round2 r.insurance)).sum)
    ∧ (compute_schedule p).2.totalPaid
        = round2 (((rawRows p).map (fun r => round2 r.payment)).sum
          + ((rawRows p).map (fun r => round2 r.extra)).sum
          + ((rawRows p).map (fun r => round2 r.insurance)).sum)
    ∧ (∀ i < (rawRows p).length,
        ((compute_schedule p).1.map Row.cumulative)[i]?
          = some (round2 ((((rawRows p).map RawRow.cash).take (i + 1)).sum))) := by
  have hne : (rawRows p).map roundRow ≠ [] := by
    intro hcon
    exact rawRows_ne_nil p (List.map_eq_nil_iff.mp hcon)
  obtain ⟨hI, hE, hN, hP, _⟩ := summaryOf_fields p hne
  have hmapI : ((rawRows p).map roundRow).map Row.interest
      = (rawRows p).map (fun r => round2 r.interest) := by
    rw [List.map_map]
    rfl
  have hmapE : ((rawRows p).map roundRow).map Row.extra
      = (rawRows p).map (fun r => round2 r.extra) := by
    rw [List.map_map]
    rfl
  have hmapN : ((rawRows p).map roundRow).map Row.insurance
      = (rawRows p).map (fun r => round2 r.insurance) := by
    rw [List.map_map]
    rfl
  have hmapP : ((rawRows p).map roundRow).map Row.payment
      = (rawRows p).map (fun r => round2 r.payment) := by
    rw [List.map_map]
    rfl
  refine ⟨?_, ?_, ?_, ?_, ?_⟩
  · rw [← hmapI]
    exact hI
  · rw [← hmapE]
    exact hE
  · rw [← hmapN]
    exact hN
  · rw [← hmapP, ← hmapE, ← hmapN]
    exact hP
  · intro i hi
    have h : ((rawRows p).map RawRow.cumulative)[i]?
        = some (0 + (((rawRows p).map RawRow.cash).take (i + 1)).sum) :=
      loopAux_cumulative_prefix p (basePayment p) (totalPeriods p) i 1
        p.startDate (principalWithFees p) 0 hi
    have hmap : (compute_schedule p).1.map Row.cumulative
        = ((rawRows p).map RawRow.cumulative).map round2 := by
      rw [compute_schedule_fst, List.map_map, List.map_map]
      rfl
    rw [hmap, List.getElem?_map, h, Option.map_some', zero_add]

/-- Claim C10: for every parameter set with a non-negative annual rate the
computation is total: the period count is at least 1, so the divisions by
`totalPeriods` are well defined, and whenever the annuity branch is taken
(nonzero period rate) its denominator `(1+r)^n − 1` is nonzero. -/
theorem C10_no_division_by_zero (p : LoanParams)
    (hrate : 0 ≤ p.annualRatePct) :
    1 ≤ totalPeriods p
    ∧ (periodRate p ≠ 0 →
        (1 + periodRate p) ^ totalPeriods p - 1 ≠ 0) := by
  refine ⟨totalPeriods_pos p, fun hr => ?_⟩
  have hX := annuity_pow_gt_one p hrate hr
  exact ne_of_gt (by linarith)

/-- Witness for C1 (amended) at a concrete parameter set. -/
theorem C1_witness :
    ((compute_schedule zeroRateExtraParams).1.map Row.cumulative).getLast?
      = some (round2 (((rawRows zeroRateExtraParams).map RawRow.cash).sum)) :=
  C1_lastCumulative_eq_rounded_cash_sum zeroRateExtraParams

/-- Witness for C3 at a concrete valid parameter set. -/
theorem C3_witness :
    List.Chain' (fun a b => b ≤ a)
        ((compute_schedule zeroRateExtraParams).1.map Row.balance)
    ∧ (∀ x ∈ (compute_schedule zeroRateExtraParams).1.map Row.balance, 0 ≤ x)
    ∧ ((compute_schedule zeroRateExtraParams).1.map Row.balance).getLast?
        = some 0 :=
  C3_balance_invariants zeroRateExtraParams
    (by constructor <;> norm_num [zeroRateExtraParams])

/-- Witness for C4 at a concrete parameter set. -/
theorem C4_witness :
    1 ≤ (compute_schedule zeroRateParams).1.length
    ∧ (compute_schedule zeroRateParams).1.length ≤ totalPeriods zeroRateParams
    ∧ (∀ r ∈ (rawRows zeroRateParams).dropLast, 0 < r.balance)
    ∧ ((compute_schedule zeroRateParams).1.length < totalPeriods zeroRateParams →
        ((rawRows zeroRateParams).map RawRow.balance).getLast? = some 0) :=
  C4_record_count_and_early_stop zeroRateParams

/-- Witness for C5 (amended) at a concrete valid parameter set. -/
theorem C5_witness :
    ((rawRows zeroRateExtraParams).map
        (fun r => r.principalComp + r.extra)).sum
      = principalWithFees zeroRateExtraParams :=
  C5_raw_principal_extra_sum_exact zeroRateExtraParams
    (by constructor <;> norm_num [zeroRateExtraParams])

/-- Witness for C6 at a concrete parameter set. -/
theorem C6_witness :
    basePayment flatParams = specScheduledPayment flatParams
    ∧ (∀ row ∈ (compute_schedule flatParams).1,
        row.payment = round2 (specScheduledPayment flatParams))
    ∧ (compute_schedule flatParams).2.emi
        = round2 (specScheduledPayment flatParams) :=
  C6_payment_formula_selection flatParams

/-- Witness for C7 at a concrete zero-rate parameter set. -/
theorem C7_witness :
    (∀ row ∈ (compute_schedule zeroRateExtraParams).1, row.interest = 0)
    ∧ (∀ row ∈ (compute_schedule zeroRateExtraParams).1.dropLast,
        row.principalComp = round2 (principalWithFees zeroRateExtraParams
          / (totalPeriods zeroRateExtraParams : ℚ))) :=
  C7_zero_rate_schedule zeroRateExtraParams rfl rfl
    (by norm_num [zeroRateExtraParams])

/-- Witness for C8 (amended) at a concrete parameter set. -/
theorem C8_witness :
    (compute_schedule flatParams).2.totalInterest
        = round2 (((rawRows flatParams).map (fun r => round2 r.interest)).sum)
    ∧ (compute_schedule flatParams).2.totalExtra
        = round2 (((rawRows flatParams).map (fun r => round2 r.extra)).sum)
    ∧ (compute_schedule flatParams).2.totalInsurance
        = round2 (((rawRows flatParams).map (fun r => round2 r.insurance)).sum)
    ∧ (compute_schedule flatParams).2.totalPaid
        = round2 (((rawRows flatParams).map (fun r => round2 r.payment)).sum
          + ((rawRows flatParams).map (fun r => round2 r.extra)).sum
          + ((rawRows flatParams).map (fun r => round2 r.insurance)).sum)
    ∧ (∀ i < (rawRows flatParams).length,
        ((compute_schedule flatParams).1.map Row.cumulative)[i]?
          = some (round2 ((((rawRows flatParams).map RawRow.cash).take (i + 1)).sum))) :=
  C8_totals_from_rounded_fields flatParams

/-- Witness for C10 at a concrete parameter set with nonzero rate. -/
theorem C10_witness :
    1 ≤ totalPeriods annuityParams
    ∧ (periodRate annuityParams ≠ 0 →
        (1 + periodRate annuityParams) ^ totalPeriods annuityParams - 1 ≠ 0) :=
  C10_no_division_by_zero annuityParams (by norm_num [annuityParams])
